import Mathlib

/-!
Shallow embedding of the dashboard expression-extraction pipeline
(`extract_expressions.py` and the column-list generator of `column_lens.py`).

Python dictionaries with optional keys are modelled as structures with
`Option` fields; `d.get(k, default)` becomes `Option.getD`; Python string
truthiness (`if s:`) becomes the `truthy` combinator; `dict` /
`defaultdict(list)` accumulation becomes insertion-ordered association
lists.  Characters are Lean `Char`s; the regular expressions of the source
are embedded as explicit character-level scanners restricted to their ASCII
semantics (the backtick pattern and the FROM pattern are pure ASCII).
-/

namespace AibiLens

/-- Python truthiness of an optional string: `None` and `""` are falsy. -/
def truthy : Option String → Option String
  | none => none
  | some s => if s = "" then none else some s

@[simp] theorem truthy_none : truthy none = none := rfl

@[simp] theorem truthy_some (s : String) :
    truthy (some s) = if s = "" then none else some s := rfl

/-! ## Data model (§3 of the source's document shape) -/

structure DashField where
  name : Option String
  expression : Option String
  deriving DecidableEq, Repr

structure DashFilter where
  expression : Option String
  deriving DecidableEq, Repr

structure DashQuery where
  datasetName : Option String
  fields : Option (List DashField)
  filters : Option (List DashFilter)
  deriving DecidableEq, Repr

structure QueryItem where
  query : Option DashQuery
  deriving DecidableEq, Repr

structure Frame where
  title : Option String
  deriving DecidableEq, Repr

structure WidgetSpec where
  frame : Option Frame
  deriving DecidableEq, Repr

structure Widget where
  name : Option String
  spec : Option WidgetSpec
  queries : Option (List QueryItem)
  deriving DecidableEq, Repr

structure LayoutItem where
  widget : Option Widget
  deriving DecidableEq, Repr

structure Page where
  displayName : Option String
  layout : Option (List LayoutItem)
  deriving DecidableEq, Repr

structure Dataset where
  name : Option String
  displayName : Option String
  queryLines : Option (List String)
  deriving DecidableEq, Repr

structure Document where
  datasets : Option (List Dataset)
  pages : Option (List Page)
  deriving DecidableEq, Repr

/-! ## Column tokenizer (`extract_columns_from_expression`)

The source finds all matches of a backtick / non-empty run of
non-backticks / backtick pattern, scanning left to right, and returns the
set of captured runs. -/

def backtick : Char := Char.ofNat 96

/-- Left-to-right scan for the backtick pattern.  The state is `none`
outside a candidate token and `some acc` after an opening backtick with
`acc` the (reversed) content read so far.  A closing backtick over
non-empty content emits the content; an opening backtick immediately
followed by another backtick fails there and the second backtick becomes
the new opening candidate; an unterminated opening emits nothing. -/
def tokensLoop : List Char → Option (List Char) → List (List Char)
  | [], _ => []
  | c :: rest, none =>
    if c = backtick then tokensLoop rest (some []) else tokensLoop rest none
  | c :: rest, some acc =>
    if c = backtick then
      if acc = [] then tokensLoop rest (some [])
      else acc.reverse :: tokensLoop rest none
    else tokensLoop rest (some (c :: acc))

/-- All captured backtick tokens of an expression string, in match order. -/
def backtickTokens (s : String) : List String :=
  (tokensLoop s.toList none).map fun cs => String.mk cs

/-- The tokenizer of the source: the set of backtick-quoted runs. -/
def extract_columns_from_expression (s : String) : Finset String :=
  (backtickTokens s).toFinset

/-- The source stores `list(columns)`: one fixed enumeration of the set. -/
def listColumns (s : String) : List String :=
  (backtickTokens s).eraseDups

/-! ## Table-name extractor (`extract_table_name`)

Embeds the search for the pattern: literal `FROM` (case-insensitive),
one or more whitespace characters, then a dotted identifier of one or
more segments of `[A-Za-z0-9_]+`.  The search tries every start position
left to right; within a match the repetitions are over disjoint character
classes, so greedy matching is maximal munch. -/

def isIdentChar (c : Char) : Bool := c.isAlphanum || c = '_'

def isSpaceChar (c : Char) : Bool :=
  c = ' ' || c = '\t' || c = '\n' || c = '\r' || c = Char.ofNat 11 || c = Char.ofNat 12

/-- Greedy scan of the tail of a dotted identifier.  The flag records a
consumed dot that is not yet justified by a following identifier
character: a dot only stays in the match when an identifier character
follows it, exactly as greedy matching of `(\.[A-Za-z0-9_]+)*` behaves. -/
def dotTail : List Char → Bool → List Char
  | [], _ => []
  | c :: rest, false =>
    if isIdentChar c then c :: dotTail rest false
    else if c = '.' then dotTail rest true
    else []
  | c :: rest, true =>
    if isIdentChar c then '.' :: c :: dotTail rest false else []

/-- Greedy dotted identifier: one or more identifier characters, then
zero or more dot-separated identifier runs; fails when no identifier
character starts here. -/
def parseDottedIdent (l : List Char) : Option (List Char) :=
  match l with
  | [] => none
  | c :: _ => if isIdentChar c then some (dotTail l false) else none

/-- One attempt of the whole pattern anchored at the start of `l`. -/
def parseFromAt (l : List Char) : Option (List Char) :=
  match l with
  | c1 :: c2 :: c3 :: c4 :: rest =>
    if c1.toLower = 'f' ∧ c2.toLower = 'r' ∧ c3.toLower = 'o' ∧ c4.toLower = 'm' then
      if rest.takeWhile isSpaceChar = [] then none
      else parseDottedIdent (rest.dropWhile isSpaceChar)
    else none
  | _ => none

/-- The search loop: first start position where the pattern matches wins. -/
def findFrom : List Char → Option (List Char)
  | [] => none
  | c :: rest =>
    match parseFromAt (c :: rest) with
    | some t => some t
    | none => findFrom rest

def extract_table_name (q : String) : Option String :=
  (findFrom q.toList).map fun cs => String.mk cs

/-! ## Dataset mapping (`build_dataset_mapping`)

A Python `dict` is an insertion-ordered association list; assignment
updates in place when the key exists and appends otherwise. -/

def dictInsert (m : List (String × String)) (k v : String) : List (String × String) :=
  match m with
  | [] => [(k, v)]
  | (k', v') :: rest => if k' = k then (k, v) :: rest else (k', v') :: dictInsert rest k v

def dictGet : List (String × α) → String → Option α
  | [], _ => none
  | (k', v) :: rest, k => if k' = k then some v else dictGet rest k

/-- The value stored for a dataset that passes the guard: the recovered
table name when the extractor returns a truthy string, else
`displayName`, else the (truthy) id. -/
def datasetValue (ds : Dataset) (id : String) : String :=
  let full_query := String.intercalate " " (ds.queryLines.getD [])
  match truthy (extract_table_name full_query) with
  | some t => t
  | none => ds.displayName.getD id

/-- One iteration of the dataset loop: only a dataset with a truthy id
and non-empty `queryLines` stores an entry. -/
def buildStep (m : List (String × String)) (ds : Dataset) : List (String × String) :=
  match truthy ds.name, ds.queryLines.getD [] with
  | some id, _ :: _ => dictInsert m id (datasetValue ds id)
  | _, _ => m

def build_dataset_mapping (d : Document) : List (String × String) :=
  (d.datasets.getD []).foldl buildStep []

/-! ## The extraction pipeline (`extract_expressions`)

The mutable `results` dictionary of the source becomes a `Results` value
threaded through folds that mirror the nested `for` loops. -/

structure UsageRecord where
  page : String
  widget : String
  dataset_id : String
  table_name : String
  field_name : Option String
  expression : Option String
  filter_expression : Option String
  columns_used : List String
  type : String
  deriving DecidableEq, Repr

structure Results where
  by_widget : List UsageRecord
  by_table : List (String × List UsageRecord)
  all_columns : Finset String
  all_expressions : List String
  all_filters : List String
  dataset_mapping : List (String × String)
  deriving DecidableEq

def emptyQuery : DashQuery := ⟨none, none, none⟩

def emptyWidget : Widget := ⟨none, none, none⟩

/-- `defaultdict(list)` append: extend the existing group or create one. -/
def tableAppend (bt : List (String × List UsageRecord)) (t : String) (r : UsageRecord) :
    List (String × List UsageRecord) :=
  match bt with
  | [] => [(t, [r])]
  | (k, l) :: rest =>
    if k = t then (k, l ++ [r]) :: rest else (k, l) :: tableAppend rest t r

/-- Widget label: `spec.frame.title` (defaulted to the widget name when the
title key is absent) when spec and frame are present, filtered through
truthiness, else the widget name, itself defaulted to "Unknown Widget". -/
def widgetLabel (w : Widget) : String :=
  let widget_name := w.name.getD "Unknown Widget"
  let widget_title : Option String :=
    match w.spec with
    | some sp =>
      match sp.frame with
      | some fr => some (fr.title.getD widget_name)
      | none => none
    | none => none
  match truthy widget_title with
  | some t => t
  | none => widget_name

def processField (R : Results) (page_name widget_lbl dataset_id table_name : String)
    (f : DashField) : Results :=
  match truthy f.expression with
  | none => R
  | some e =>
    let entry : UsageRecord :=
      { page := page_name
        widget := widget_lbl
        dataset_id := dataset_id
        table_name := table_name
        field_name := some (f.name.getD "Unknown Field")
        expression := some e
        filter_expression := none
        columns_used := listColumns e
        type := "field" }
    { R with
      by_widget := R.by_widget ++ [entry]
      by_table := tableAppend R.by_table table_name entry
      all_columns := R.all_columns ∪ extract_columns_from_expression e
      all_expressions := R.all_expressions ++ [e] }

def processFilter (R : Results) (page_name widget_lbl dataset_id table_name : String)
    (f : DashFilter) : Results :=
  match truthy f.expression with
  | none => R
  | some e =>
    let entry : UsageRecord :=
      { page := page_name
        widget := widget_lbl
        dataset_id := dataset_id
        table_name := table_name
        field_name := none
        expression := none
        filter_expression := some e
        columns_used := listColumns e
        type := "filter" }
    { R with
      by_widget := R.by_widget ++ [entry]
      by_table := tableAppend R.by_table table_name entry
      all_columns := R.all_columns ∪ extract_columns_from_expression e
      all_filters := R.all_filters ++ [e] }

def processQueryItem (R : Results) (dm : List (String × String))
    (page_name widget_lbl : String) (qi : QueryItem) : Results :=
  let query := qi.query.getD emptyQuery
  let dataset_id := query.datasetName.getD "Unknown Dataset"
  let table_name := (dictGet dm dataset_id).getD dataset_id
  let R1 := (query.fields.getD []).foldl
    (fun R f => processField R page_name widget_lbl dataset_id table_name f) R
  (query.filters.getD []).foldl
    (fun R f => processFilter R page_name widget_lbl dataset_id table_name f) R1

def processLayoutItem (R : Results) (dm : List (String × String)) (page_name : String)
    (li : LayoutItem) : Results :=
  let widget := li.widget.getD emptyWidget
  let widget_lbl := widgetLabel widget
  (widget.queries.getD []).foldl
    (fun R qi => processQueryItem R dm page_name widget_lbl qi) R

def processPage (R : Results) (dm : List (String × String)) (p : Page) : Results :=
  let page_name := p.displayName.getD "Unknown Page"
  (p.layout.getD []).foldl
    (fun R li => processLayoutItem R dm page_name li) R

def emptyResults (dm : List (String × String)) : Results :=
  { by_widget := []
    by_table := []
    all_columns := ∅
    all_expressions := []
    all_filters := []
    dataset_mapping := dm }

def extract_expressions (d : Document) : Results :=
  let dm := build_dataset_mapping d
  (d.pages.getD []).foldl (fun R p => processPage R dm p) (emptyResults dm)

/-- The final `all_columns` of the source: the set sorted into a list. -/
def allColumnsSorted (R : Results) : List String :=
  R.all_columns.sort (· ≤ ·)

/-! ## Column-list generation (`generate_column_lists_for_sql`)

Only the `columns` component (the sorted deduplicated union) is modelled;
the other dictionary entries of the source are string formattings of that
same sorted list. -/

def tableUnion (entries : List UsageRecord) : Finset String :=
  entries.foldl (fun s e => s ∪ e.columns_used.toFinset) ∅

/-- Computable code-point lexicographic comparison of character lists,
matching the order `sorted` uses. -/
def lexLe : List Char → List Char → Bool
  | [], _ => true
  | _ :: _, [] => false
  | a :: as, b :: bs => if a < b then true else if b < a then false else lexLe as bs

def strLe (a b : String) : Bool := lexLe a.toList b.toList

def insertStr (a : String) : List String → List String
  | [] => [a]
  | b :: bs => if strLe a b then a :: b :: bs else b :: insertStr a bs

def sortStrs : List String → List String
  | [] => []
  | a :: as => insertStr a (sortStrs as)

/-- `sorted(list(columns))` for one table: the elements of the
accumulated set, sorted ascending. -/
def tableColumnsSorted (entries : List UsageRecord) : List String :=
  sortStrs ((entries.map (fun e => e.columns_used)).flatten.dedup)

def generate_column_lists_for_sql (results : Results) : List (String × List String) :=
  results.by_table.map fun it => (it.1, tableColumnsSorted it.2)

/-! ## Pure emission view of the traversal

Each loop level of `extract_expressions` only appends to the result
fields, so the traversal is equivalently described by pure per-level
record lists.  The lemmas below establish that equivalence. -/

def fieldRecords (page_name widget_lbl dataset_id table_name : String)
    (f : DashField) : List UsageRecord :=
  match truthy f.expression with
  | none => []
  | some e =>
    [{ page := page_name
       widget := widget_lbl
       dataset_id := dataset_id
       table_name := table_name
       field_name := some (f.name.getD "Unknown Field")
       expression := some e
       filter_expression := none
       columns_used := listColumns e
       type := "field" }]

def filterRecords (page_name widget_lbl dataset_id table_name : String)
    (f : DashFilter) : List UsageRecord :=
  match truthy f.expression with
  | none => []
  | some e =>
    [{ page := page_name
       widget := widget_lbl
       dataset_id := dataset_id
       table_name := table_name
       field_name := none
       expression := none
       filter_expression := some e
       columns_used := listColumns e
       type := "filter" }]

def queryRecords (dm : List (String × String)) (page_name widget_lbl : String)
    (qi : QueryItem) : List UsageRecord :=
  let query := qi.query.getD emptyQuery
  let dataset_id := query.datasetName.getD "Unknown Dataset"
  let table_name := (dictGet dm dataset_id).getD dataset_id
  (query.fields.getD []).flatMap
      (fun f => fieldRecords page_name widget_lbl dataset_id table_name f)
    ++ (query.filters.getD []).flatMap
      (fun f => filterRecords page_name widget_lbl dataset_id table_name f)

def layoutRecords (dm : List (String × String)) (page_name : String)
    (li : LayoutItem) : List UsageRecord :=
  let widget := li.widget.getD emptyWidget
  (widget.queries.getD []).flatMap
    (fun qi => queryRecords dm page_name (widgetLabel widget) qi)

def pageRecords (dm : List (String × String)) (p : Page) : List UsageRecord :=
  (p.layout.getD []).flatMap
    (fun li => layoutRecords dm (p.displayName.getD "Unknown Page") li)

def docRecords (d : Document) : List UsageRecord :=
  (d.pages.getD []).flatMap (fun p => pageRecords (build_dataset_mapping d) p)

/-! ### Generic fold lemmas -/

theorem foldl_append_proj {α β : Type} (step : Results → α → Results) (g : α → List β)
    (proj : Results → List β) (h : ∀ R x, proj (step R x) = proj R ++ g x)
    (l : List α) (R : Results) :
    proj (l.foldl step R) = proj R ++ l.flatMap g := by
  induction l generalizing R with
  | nil => simp
  | cons x xs ih => simp [List.foldl_cons, ih, h, List.append_assoc]

/-! ### Association-list lemmas -/

theorem dictGet_dictInsert (m : List (String × String)) (k v k' : String) :
    dictGet (dictInsert m k v) k' = if k = k' then some v else dictGet m k' := by
  induction m with
  | nil => simp [dictInsert, dictGet]
  | cons hd tl ih =>
    obtain ⟨k₀, v₀⟩ := hd
    by_cases h0 : k₀ = k
    · subst h0
      by_cases h1 : k₀ = k'
      · simp [dictInsert, dictGet, h1]
      · simp [dictInsert, dictGet, h1]
    · by_cases h1 : k₀ = k'
      · subst h1
        have h2 : ¬ k = k₀ := fun he => h0 he.symm
        simp [dictInsert, dictGet, h0, h2]
      · simp [dictInsert, dictGet, h0, h1, ih]

theorem dictGet_tableAppend (bt : List (String × List UsageRecord)) (t : String)
    (r : UsageRecord) (t' : String) :
    (dictGet (tableAppend bt t r) t').getD [] =
      (dictGet bt t').getD [] ++ if t = t' then [r] else [] := by
  induction bt with
  | nil =>
    by_cases h : t = t' <;> simp [tableAppend, dictGet, h]
  | cons hd tl ih =>
    obtain ⟨k, l⟩ := hd
    by_cases h0 : k = t
    · subst h0
      by_cases h1 : k = t'
      · subst h1; simp [tableAppend, dictGet]
      · have h2 : ¬ k = t' := h1
        simp [tableAppend, dictGet, h1, h2]
    · by_cases h1 : k = t'
      · subst h1
        have h2 : ¬ t = k := fun he => h0 he.symm
        simp [tableAppend, dictGet, h0, h2]
      · simp [tableAppend, dictGet, h0, h1, ih]

theorem dictGet_eq_none_iff {α : Type} (m : List (String × α)) (k : String) :
    dictGet m k = none ↔ k ∉ m.map Prod.fst := by
  induction m with
  | nil => simp [dictGet]
  | cons hd tl ih =>
    obtain ⟨k₀, v₀⟩ := hd
    by_cases h : k₀ = k
    · simp [dictGet, h]
    · have h' : ¬ k = k₀ := fun he => h he.symm
      simp [dictGet, h, h', ih]

theorem dictGet_map_snd {α β : Type} (m : List (String × α)) (f : α → β) (k : String) :
    dictGet (m.map fun it => (it.1, f it.2)) k = (dictGet m k).map f := by
  induction m with
  | nil => simp [dictGet]
  | cons hd tl ih =>
    obtain ⟨k₀, v₀⟩ := hd
    by_cases h : k₀ = k <;> simp [dictGet, h, ih]

theorem tableAppend_keys (bt : List (String × List UsageRecord)) (t : String)
    (r : UsageRecord) :
    (tableAppend bt t r).map Prod.fst =
      if t ∈ bt.map Prod.fst then bt.map Prod.fst else bt.map Prod.fst ++ [t] := by
  induction bt with
  | nil => simp [tableAppend]
  | cons hd tl ih =>
    obtain ⟨k, l⟩ := hd
    by_cases h0 : k = t
    · subst h0; simp [tableAppend]
    · have : ¬ t = k := fun h => h0 h.symm
      simp [tableAppend, h0, ih, this]
      by_cases h1 : t ∈ tl.map Prod.fst <;> simp [h1, this]

theorem dictGet_of_mem_nodup {α : Type} (m : List (String × α)) (k : String) (v : α)
    (hmem : (k, v) ∈ m) (hnd : (m.map Prod.fst).Nodup) : dictGet m k = some v := by
  induction m with
  | nil => simp at hmem
  | cons hd tl ih =>
    obtain ⟨k₀, v₀⟩ := hd
    simp only [List.map_cons, List.nodup_cons] at hnd
    rcases List.mem_cons.mp hmem with h | h
    · rw [Prod.mk.injEq] at h
      simp [dictGet, h.1, h.2]
    · have hk : k₀ ≠ k := by
        intro he
        exact hnd.1 (he ▸ (List.mem_map.mpr ⟨(k, v), h, rfl⟩))
      simp [dictGet, hk, ih h hnd.2]

/-! ### The traversal state equals the pure emission view -/

theorem by_widget_processField (R : Results) (pn lbl did tn : String) (f : DashField) :
    (processField R pn lbl did tn f).by_widget =
      R.by_widget ++ fieldRecords pn lbl did tn f := by
  unfold processField fieldRecords
  cases truthy f.expression <;> simp

theorem by_widget_processFilter (R : Results) (pn lbl did tn : String) (f : DashFilter) :
    (processFilter R pn lbl did tn f).by_widget =
      R.by_widget ++ filterRecords pn lbl did tn f := by
  unfold processFilter filterRecords
  cases truthy f.expression <;> simp

theorem by_widget_processQueryItem (R : Results) (dm : List (String × String))
    (pn lbl : String) (qi : QueryItem) :
    (processQueryItem R dm pn lbl qi).by_widget = R.by_widget ++ queryRecords dm pn lbl qi := by
  unfold processQueryItem queryRecords
  rw [foldl_append_proj _ _ _ (fun R f => by_widget_processFilter R pn lbl _ _ f),
    foldl_append_proj _ _ _ (fun R f => by_widget_processField R pn lbl _ _ f),
    List.append_assoc]

theorem by_widget_processLayoutItem (R : Results) (dm : List (String × String))
    (pn : String) (li : LayoutItem) :
    (processLayoutItem R dm pn li).by_widget = R.by_widget ++ layoutRecords dm pn li := by
  unfold processLayoutItem layoutRecords
  rw [foldl_append_proj _ _ _ (fun R qi => by_widget_processQueryItem R dm pn _ qi)]

theorem by_widget_processPage (R : Results) (dm : List (String × String)) (p : Page) :
    (processPage R dm p).by_widget = R.by_widget ++ pageRecords dm p := by
  unfold processPage pageRecords
  rw [foldl_append_proj _ _ _ (fun R li => by_widget_processLayoutItem R dm _ li)]

theorem by_widget_extract (d : Document) :
    (extract_expressions d).by_widget = docRecords d := by
  unfold extract_expressions docRecords
  rw [foldl_append_proj _ _ _ (fun R p => by_widget_processPage R _ p)]
  simp [emptyResults]

theorem group_processField (t : String) (R : Results) (pn lbl did tn : String)
    (f : DashField) :
    (dictGet (processField R pn lbl did tn f).by_table t).getD [] =
      (dictGet R.by_table t).getD []
        ++ (fieldRecords pn lbl did tn f).filter (fun r => r.table_name == t) := by
  unfold processField fieldRecords
  cases truthy f.expression with
  | none => simp
  | some e =>
    simp only [dictGet_tableAppend, List.filter_cons, List.filter_nil]
    by_cases h : tn = t <;> simp [h]

theorem group_processFilter (t : String) (R : Results) (pn lbl did tn : String)
    (f : DashFilter) :
    (dictGet (processFilter R pn lbl did tn f).by_table t).getD [] =
      (dictGet R.by_table t).getD []
        ++ (filterRecords pn lbl did tn f).filter (fun r => r.table_name == t) := by
  unfold processFilter filterRecords
  cases truthy f.expression with
  | none => simp
  | some e =>
    simp only [dictGet_tableAppend, List.filter_cons, List.filter_nil]
    by_cases h : tn = t <;> simp [h]

theorem filter_flatMap_comm {α β : Type} (l : List α) (g : α → List β) (p : β → Bool) :
    (l.flatMap g).filter p = l.flatMap fun x => (g x).filter p := by
  induction l with
  | nil => rfl
  | cons x xs ih => simp [List.flatMap_cons, List.filter_append, ih]

theorem group_processQueryItem (t : String) (R : Results) (dm : List (String × String))
    (pn lbl : String) (qi : QueryItem) :
    (dictGet (processQueryItem R dm pn lbl qi).by_table t).getD [] =
      (dictGet R.by_table t).getD []
        ++ (queryRecords dm pn lbl qi).filter (fun r => r.table_name == t) := by
  unfold processQueryItem queryRecords
  rw [foldl_append_proj _ _ (fun R => (dictGet R.by_table t).getD [])
      (fun R f => group_processFilter t R pn lbl _ _ f),
    foldl_append_proj _ _ (fun R => (dictGet R.by_table t).getD [])
      (fun R f => group_processField t R pn lbl _ _ f),
    List.append_assoc, List.filter_append, filter_flatMap_comm, filter_flatMap_comm]

theorem group_processLayoutItem (t : String) (R : Results) (dm : List (String × String))
    (pn : String) (li : LayoutItem) :
    (dictGet (processLayoutItem R dm pn li).by_table t).getD [] =
      (dictGet R.by_table t).getD []
        ++ (layoutRecords dm pn li).filter (fun r => r.table_name == t) := by
  unfold processLayoutItem layoutRecords
  rw [foldl_append_proj _ _ (fun R => (dictGet R.by_table t).getD [])
      (fun R qi => group_processQueryItem t R dm pn _ qi),
    filter_flatMap_comm]

theorem group_processPage (t : String) (R : Results) (dm : List (String × String))
    (p : Page) :
    (dictGet (processPage R dm p).by_table t).getD [] =
      (dictGet R.by_table t).getD []
        ++ (pageRecords dm p).filter (fun r => r.table_name == t) := by
  unfold processPage pageRecords
  rw [foldl_append_proj _ _ (fun R => (dictGet R.by_table t).getD [])
      (fun R li => group_processLayoutItem t R dm _ li),
    filter_flatMap_comm]

theorem group_extract (d : Document) (t : String) :
    (dictGet (extract_expressions d).by_table t).getD [] =
      (extract_expressions d).by_widget.filter (fun r => r.table_name == t) := by
  rw [by_widget_extract]
  unfold extract_expressions docRecords
  rw [foldl_append_proj _ _ (fun R => (dictGet R.by_table t).getD [])
      (fun R p => group_processPage t R _ p),
    filter_flatMap_comm]
  simp [emptyResults, dictGet]

/-! ### Keys of `by_table` -/

theorem foldl_preserve {α : Type} (step : Results → α → Results) (P : Results → Prop)
    (h : ∀ R x, P R → P (step R x)) (l : List α) (R : Results) (hR : P R) :
    P (l.foldl step R) := by
  induction l generalizing R with
  | nil => exact hR
  | cons x xs ih => exact ih _ (h _ _ hR)

theorem nodup_keys_tableAppend (bt : List (String × List UsageRecord)) (t : String)
    (r : UsageRecord) (hnd : (bt.map Prod.fst).Nodup) :
    ((tableAppend bt t r).map Prod.fst).Nodup := by
  rw [tableAppend_keys]
  by_cases h : t ∈ bt.map Prod.fst
  · simpa [h]
  · simpa [h] using List.Nodup.append hnd (List.nodup_singleton t) (by simpa using h)

theorem nodup_keys_processField (R : Results) (pn lbl did tn : String) (f : DashField)
    (hnd : (R.by_table.map Prod.fst).Nodup) :
    ((processField R pn lbl did tn f).by_table.map Prod.fst).Nodup := by
  unfold processField
  cases truthy f.expression with
  | none => exact hnd
  | some e => exact nodup_keys_tableAppend _ _ _ hnd

theorem nodup_keys_processFilter (R : Results) (pn lbl did tn : String) (f : DashFilter)
    (hnd : (R.by_table.map Prod.fst).Nodup) :
    ((processFilter R pn lbl did tn f).by_table.map Prod.fst).Nodup := by
  unfold processFilter
  cases truthy f.expression with
  | none => exact hnd
  | some e => exact nodup_keys_tableAppend _ _ _ hnd

theorem nodup_keys_extract (d : Document) :
    ((extract_expressions d).by_table.map Prod.fst).Nodup := by
  unfold extract_expressions
  refine foldl_preserve _ (fun R => (R.by_table.map Prod.fst).Nodup) ?_ _ _
    (by simp [emptyResults])
  intro R p hR
  unfold processPage
  refine foldl_preserve _ (fun R => (R.by_table.map Prod.fst).Nodup) ?_ _ _ hR
  intro R li hR
  unfold processLayoutItem
  refine foldl_preserve _ (fun R => (R.by_table.map Prod.fst).Nodup) ?_ _ _ hR
  intro R qi hR
  unfold processQueryItem
  refine foldl_preserve _ (fun R => (R.by_table.map Prod.fst).Nodup)
    (fun R f h => nodup_keys_processFilter R _ _ _ _ f h) _ _ ?_
  exact foldl_preserve _ (fun R => (R.by_table.map Prod.fst).Nodup)
    (fun R f h => nodup_keys_processField R _ _ _ _ f h) _ _ hR

/-! ### Grouping is a partition -/

theorem map_snd_eq_map_keys {α : Type} (m : List (String × α)) (d : α)
    (hnd : (m.map Prod.fst).Nodup) :
    m.map Prod.snd = (m.map Prod.fst).map (fun k => (dictGet m k).getD d) := by
  induction m with
  | nil => rfl
  | cons hd tl ih =>
    obtain ⟨k, v⟩ := hd
    simp only [List.map_cons, List.nodup_cons] at hnd ⊢
    rw [ih hnd.2]
    congr 1
    · simp [dictGet]
    · refine List.map_congr_left ?_
      intro k' hk'
      have hne : ¬ k = k' := by
        intro he
        exact hnd.1 (he ▸ hk')
      simp [dictGet, hne]

theorem flatten_filter_perm {α : Type} (key : α → String) (ks : List String) (l : List α)
    (hnd : ks.Nodup) (hcov : ∀ a ∈ l, key a ∈ ks) :
    List.Perm ((ks.map fun k => l.filter (fun a => key a == k)).flatten) l := by
  induction ks generalizing l with
  | nil =>
    have : l = [] := by
      cases l with
      | nil => rfl
      | cons a t => exact absurd (hcov a (List.mem_cons_self a t)) (by simp)
    simp [this]
  | cons k ks ih =>
    simp only [List.nodup_cons] at hnd
    have hstep := List.filter_append_perm (fun a => key a == k) l
    set l' := l.filter (fun a => !(key a == k)) with hl'
    have hcov' : ∀ a ∈ l', key a ∈ ks := by
      intro a ha
      rw [hl', List.mem_filter] at ha
      have := hcov a ha.1
      simp only [List.mem_cons] at this
      rcases this with h | h
      · exact absurd h (by simpa using ha.2)
      · exact h
    have hmaps : (ks.map fun k' => l.filter (fun a => key a == k'))
        = ks.map fun k' => l'.filter (fun a => key a == k') := by
      refine (List.map_congr_left ?_).symm
      intro k' hk'
      rw [hl', List.filter_filter]
      refine List.filter_congr ?_
      intro a _
      by_cases h : key a = k'
      · have hkk : ¬ key a = k := by
          intro he
          have hkk' : k = k' := he.symm.trans h
          exact hnd.1 (by rw [hkk']; exact hk')
        simp [h, hkk]
        exact fun he => hnd.1 (he ▸ hk')
      · simp [h]
    simp only [List.map_cons, List.flatten_cons, hmaps]
    exact List.Perm.trans (List.Perm.append_left _ (ih l' hnd.2 hcov')) hstep

/-! ## Claim C9 -/

/-- C9: for every document, the groups of `by_table` partition `by_widget`:
every group is exactly the in-order filter of `by_widget` at its table
name, every emitted record lies in the group of its own resolved table
name and only there, and the concatenation of all groups is a permutation
of `by_widget`. -/
theorem c9_by_table_partitions_by_widget (d : Document) :
    (∀ t, (dictGet (extract_expressions d).by_table t).getD [] =
        (extract_expressions d).by_widget.filter (fun r => r.table_name == t))
    ∧ (∀ r : UsageRecord, r ∈ (extract_expressions d).by_widget →
        r ∈ (dictGet (extract_expressions d).by_table r.table_name).getD [])
    ∧ (∀ (t : String) (r : UsageRecord),
        r ∈ (dictGet (extract_expressions d).by_table t).getD [] → r.table_name = t)
    ∧ List.Perm (((extract_expressions d).by_table.map Prod.snd).flatten)
        (extract_expressions d).by_widget := by
  refine ⟨group_extract d, ?_, ?_, ?_⟩
  · intro r hr
    rw [group_extract]
    exact List.mem_filter.mpr ⟨hr, by simp⟩
  · intro t r hr
    rw [group_extract] at hr
    simpa using (List.mem_filter.mp hr).2
  · have hnd := nodup_keys_extract d
    have hcov : ∀ r : UsageRecord, r ∈ (extract_expressions d).by_widget →
        r.table_name ∈ (extract_expressions d).by_table.map Prod.fst := by
      intro r hr
      by_contra hmem
      have hnone : dictGet (extract_expressions d).by_table r.table_name = none :=
        (dictGet_eq_none_iff _ _).mpr hmem
      have h1 := group_extract d r.table_name
      rw [hnone] at h1
      have h2 : r ∈ (extract_expressions d).by_widget.filter
          (fun r' => r'.table_name == r.table_name) :=
        List.mem_filter.mpr ⟨hr, by simp⟩
      rw [← h1] at h2
      simp at h2
    have hmaps : (extract_expressions d).by_table.map Prod.snd
        = ((extract_expressions d).by_table.map Prod.fst).map
            (fun k => (extract_expressions d).by_widget.filter (fun r => r.table_name == k)) := by
      rw [map_snd_eq_map_keys _ ([] : List UsageRecord) hnd]
      exact List.map_congr_left (fun k _ => group_extract d k)
    rw [hmaps]
    exact flatten_filter_perm (fun r : UsageRecord => r.table_name) _ _ hnd hcov

def c9query : DashQuery :=
  { datasetName := some "ds",
    fields := some [⟨some "f", some "`a`"⟩],
    filters := none }

def c9widget : Widget :=
  { name := some "w", spec := none, queries := some [⟨some c9query⟩] }

def c9doc : Document :=
  { datasets := none,
    pages := some [⟨some "P", some [⟨some c9widget⟩]⟩] }

def c9rec : UsageRecord :=
  { page := "P", widget := "w", dataset_id := "ds", table_name := "ds",
    field_name := some "f", expression := some "`a`", filter_expression := none,
    columns_used := ["a"], type := "field" }

theorem c9_witness :
    c9rec ∈ (dictGet (extract_expressions c9doc).by_table c9rec.table_name).getD []
    ∧ c9rec.table_name = "ds" := by
  have h := c9_by_table_partitions_by_widget c9doc
  have hmem : c9rec ∈ (extract_expressions c9doc).by_widget := by decide
  exact ⟨h.2.1 c9rec hmem, rfl⟩

/-! ## Claim C6 -/

/-- C6: building the index from the same document twice yields identical
results: identical `by_widget` sequence, identical sorted `all_columns`,
and identical `by_table` groups at every table name.  (In this model the
pipeline is a pure function of the document, so a rebuild cannot differ.) -/
theorem c6_rebuild_deterministic (d1 d2 : Document) (h : d1 = d2) :
    (extract_expressions d1).by_widget = (extract_expressions d2).by_widget
    ∧ allColumnsSorted (extract_expressions d1) = allColumnsSorted (extract_expressions d2)
    ∧ (∀ t, dictGet (extract_expressions d1).by_table t =
        dictGet (extract_expressions d2).by_table t) := by
  subst h
  exact ⟨rfl, rfl, fun t => rfl⟩

theorem c6_witness :
    (extract_expressions c9doc).by_widget = (extract_expressions c9doc).by_widget
    ∧ allColumnsSorted (extract_expressions c9doc) = allColumnsSorted (extract_expressions c9doc)
    ∧ (∀ t, dictGet (extract_expressions c9doc).by_table t =
        dictGet (extract_expressions c9doc).by_table t) :=
  c6_rebuild_deterministic c9doc c9doc rfl

/-! ## Claim C7 -/

/-- C7: an absent container is treated as empty and never an error: a
document with no `pages` yields no records and no groups, a page with no
`layout` contributes nothing, a widget with no `queries` contributes
nothing, a query with neither `fields` nor `filters` contributes nothing,
and a document with no `datasets` yields an empty dataset mapping. -/
theorem c7_absent_containers_are_empty :
    (∀ d : Document, d.pages = none →
      (extract_expressions d).by_widget = [] ∧ (extract_expressions d).by_table = [])
    ∧ (∀ (R : Results) (dm : List (String × String)) (p : Page), p.layout = none →
        processPage R dm p = R)
    ∧ (∀ (R : Results) (dm : List (String × String)) (pn : String) (li : LayoutItem),
        (li.widget.getD emptyWidget).queries = none → processLayoutItem R dm pn li = R)
    ∧ (∀ (R : Results) (dm : List (String × String)) (pn lbl : String) (qi : QueryItem),
        (qi.query.getD emptyQuery).fields = none → (qi.query.getD emptyQuery).filters = none →
        processQueryItem R dm pn lbl qi = R)
    ∧ (∀ d : Document, d.datasets = none → build_dataset_mapping d = []) := by
  refine ⟨?_, ?_, ?_, ?_, ?_⟩
  · intro d h
    unfold extract_expressions
    rw [h]
    exact ⟨rfl, rfl⟩
  · intro R dm p h
    simp [processPage, h]
  · intro R dm pn li h
    simp [processLayoutItem, h]
  · intro R dm pn lbl qi hf hg
    simp [processQueryItem, hf, hg]
  · intro d h
    unfold build_dataset_mapping
    rw [h]
    rfl

theorem c7_witness :
    (extract_expressions { datasets := none, pages := none }).by_widget = []
    ∧ (extract_expressions { datasets := none, pages := none }).by_table = []
    ∧ build_dataset_mapping { datasets := none, pages := none } = [] := by
  have h := c7_absent_containers_are_empty
  have h1 := h.1 { datasets := none, pages := none } rfl
  exact ⟨h1.1, h1.2, h.2.2.2.2 { datasets := none, pages := none } rfl⟩

end AibiLens
namespace AibiLens

/-! ## Claim C3 -/

/-- Present and non-empty expression, as the spec words it. -/
def nonEmptyExpr : Option String → Bool
  | none => false
  | some e => !(e = "")

theorem truthy_eq_none_iff (o : Option String) : truthy o = none ↔ nonEmptyExpr o = false := by
  cases o with
  | none => simp [truthy, nonEmptyExpr]
  | some e => by_cases h : e = "" <;> simp [truthy, nonEmptyExpr, h]

def queryExprCount (qi : QueryItem) : Nat :=
  ((qi.query.getD emptyQuery).fields.getD []).countP (fun f => nonEmptyExpr f.expression)
    + ((qi.query.getD emptyQuery).filters.getD []).countP (fun f => nonEmptyExpr f.expression)

def docExprCount (d : Document) : Nat :=
  ((d.pages.getD []).map (fun p =>
    ((p.layout.getD []).map (fun li =>
      (((li.widget.getD emptyWidget).queries.getD []).map queryExprCount).sum)).sum)).sum

theorem length_fieldRecords (pn lbl did tn : String) (f : DashField) :
    (fieldRecords pn lbl did tn f).length = if nonEmptyExpr f.expression then 1 else 0 := by
  unfold fieldRecords
  cases f.expression with
  | none => rfl
  | some e => by_cases h : e = "" <;> simp [truthy, nonEmptyExpr, h]

theorem length_filterRecords (pn lbl did tn : String) (f : DashFilter) :
    (filterRecords pn lbl did tn f).length = if nonEmptyExpr f.expression then 1 else 0 := by
  unfold filterRecords
  cases f.expression with
  | none => rfl
  | some e => by_cases h : e = "" <;> simp [truthy, nonEmptyExpr, h]

theorem length_flatMap_count {α β : Type} (l : List α) (g : α → List β) (p : α → Bool)
    (h : ∀ x, (g x).length = if p x then 1 else 0) :
    (l.flatMap g).length = l.countP p := by
  induction l with
  | nil => rfl
  | cons x xs ih =>
    simp only [List.flatMap_cons, List.length_append, List.countP_cons, h, ih]
    by_cases hp : p x <;> simp [hp, Nat.add_comm]

theorem length_queryRecords (dm : List (String × String)) (pn lbl : String)
    (qi : QueryItem) : (queryRecords dm pn lbl qi).length = queryExprCount qi := by
  unfold queryRecords queryExprCount
  rw [List.length_append,
    length_flatMap_count _ _ _ (fun f => length_fieldRecords pn lbl _ _ f),
    length_flatMap_count _ _ _ (fun f => length_filterRecords pn lbl _ _ f)]

theorem length_flatMap_sum {α β : Type} (l : List α) (g : α → List β) (n : α → Nat)
    (h : ∀ x, (g x).length = n x) : (l.flatMap g).length = (l.map n).sum := by
  induction l with
  | nil => rfl
  | cons x xs ih => simp [List.flatMap_cons, h, ih]

/-- C3: for every document, `by_widget` has exactly one record per field
with a present, non-empty expression plus one per filter with a present,
non-empty expression; fields and filters whose expression is absent or
empty contribute nothing. -/
theorem c3_by_widget_length (d : Document) :
    (extract_expressions d).by_widget.length = docExprCount d := by
  rw [by_widget_extract]
  unfold docRecords docExprCount
  refine length_flatMap_sum _ _ _ (fun p => ?_)
  unfold pageRecords
  refine length_flatMap_sum _ _ _ (fun li => ?_)
  unfold layoutRecords
  exact length_flatMap_sum _ _ _ (fun qi => length_queryRecords _ _ _ qi)

/-! ## Claim C8 -/

theorem mem_fieldRecords {r : UsageRecord} {pn lbl did tn : String} {f : DashField}
    (h : r ∈ fieldRecords pn lbl did tn f) :
    r.page = pn ∧ r.widget = lbl ∧ r.dataset_id = did ∧ r.table_name = tn := by
  unfold fieldRecords at h
  cases htr : truthy f.expression with
  | none =>
    rw [htr] at h
    simp at h
  | some e =>
    rw [htr] at h
    simp only [List.mem_singleton] at h
    subst h
    exact ⟨rfl, rfl, rfl, rfl⟩

theorem mem_filterRecords {r : UsageRecord} {pn lbl did tn : String} {f : DashFilter}
    (h : r ∈ filterRecords pn lbl did tn f) :
    r.page = pn ∧ r.widget = lbl ∧ r.dataset_id = did ∧ r.table_name = tn := by
  unfold filterRecords at h
  cases htr : truthy f.expression with
  | none =>
    rw [htr] at h
    simp at h
  | some e =>
    rw [htr] at h
    simp only [List.mem_singleton] at h
    subst h
    exact ⟨rfl, rfl, rfl, rfl⟩

theorem mem_queryRecords {r : UsageRecord} {dm : List (String × String)}
    {pn lbl : String} {qi : QueryItem} (h : r ∈ queryRecords dm pn lbl qi) :
    r.page = pn ∧ r.widget = lbl
      ∧ r.dataset_id = (qi.query.getD emptyQuery).datasetName.getD "Unknown Dataset" := by
  unfold queryRecords at h
  rw [List.mem_append] at h
  rcases h with h | h <;> rw [List.mem_flatMap] at h <;> obtain ⟨f, _, hf⟩ := h
  · obtain ⟨h1, h2, h3, _⟩ := mem_fieldRecords hf
    exact ⟨h1, h2, h3⟩
  · obtain ⟨h1, h2, h3, _⟩ := mem_filterRecords hf
    exact ⟨h1, h2, h3⟩

theorem mem_layoutRecords {r : UsageRecord} {dm : List (String × String)}
    {pn : String} {li : LayoutItem} (h : r ∈ layoutRecords dm pn li) :
    r.page = pn ∧ r.widget = widgetLabel (li.widget.getD emptyWidget) := by
  unfold layoutRecords at h
  rw [List.mem_flatMap] at h
  obtain ⟨qi, _, hq⟩ := h
  obtain ⟨h1, h2, _⟩ := mem_queryRecords hq
  exact ⟨h1, h2⟩

theorem mem_pageRecords {r : UsageRecord} {dm : List (String × String)} {p : Page}
    (h : r ∈ pageRecords dm p) : r.page = p.displayName.getD "Unknown Page" := by
  unfold pageRecords at h
  rw [List.mem_flatMap] at h
  obtain ⟨li, _, hl⟩ := h
  exact (mem_layoutRecords hl).1

/-- C8: the widget label of every emitted record is `spec.frame.title`
when present and non-empty, else the widget name, else the literal
"Unknown Widget"; the page label defaults to "Unknown Page" when the
page's display name is absent; the dataset id defaults to
"Unknown Dataset" when absent from the query. -/
theorem c8_display_fallbacks :
    (∀ w : Widget, widgetLabel w =
      match (w.spec.bind WidgetSpec.frame).bind Frame.title with
      | some t => if t = "" then w.name.getD "Unknown Widget" else t
      | none => w.name.getD "Unknown Widget")
    ∧ (∀ (dm : List (String × String)) (pn : String) (li : LayoutItem)
        (r : UsageRecord), r ∈ layoutRecords dm pn li →
          r.widget = widgetLabel (li.widget.getD emptyWidget) ∧ r.page = pn)
    ∧ (∀ (dm : List (String × String)) (p : Page) (r : UsageRecord),
        r ∈ pageRecords dm p → r.page = p.displayName.getD "Unknown Page")
    ∧ (∀ (dm : List (String × String)) (pn lbl : String) (qi : QueryItem)
        (r : UsageRecord), r ∈ queryRecords dm pn lbl qi →
          r.dataset_id = (qi.query.getD emptyQuery).datasetName.getD "Unknown Dataset") := by
  refine ⟨?_, ?_, ?_, ?_⟩
  · intro w
    obtain ⟨nm, sp, qs⟩ := w
    cases sp with
    | none => rfl
    | some sp =>
      obtain ⟨fr⟩ := sp
      cases fr with
      | none => rfl
      | some fr =>
        obtain ⟨ti⟩ := fr
        cases ti with
        | none =>
          by_cases h : nm.getD "Unknown Widget" = "" <;>
            simp [widgetLabel, truthy, h]
        | some t =>
          by_cases h : t = "" <;> simp [widgetLabel, truthy, h]
  · intro dm pn li r h
    exact ⟨(mem_layoutRecords h).2, (mem_layoutRecords h).1⟩
  · intro dm p r h
    exact mem_pageRecords h
  · intro dm pn lbl qi r h
    exact (mem_queryRecords h).2.2

theorem c8_witness :
    widgetLabel { name := some "w", spec := some ⟨some ⟨some ""⟩⟩, queries := none } = "w"
    ∧ c9rec.widget = widgetLabel (some c9widget |>.getD emptyWidget)
    ∧ c9rec.page = "P" := by
  have h := c8_display_fallbacks
  have h1 := h.1 { name := some "w", spec := some ⟨some ⟨some ""⟩⟩, queries := none }
  have hmem : c9rec ∈ layoutRecords (build_dataset_mapping c9doc) "P" ⟨some c9widget⟩ := by
    decide
  have h2 := h.2.1 (build_dataset_mapping c9doc) "P" ⟨some c9widget⟩ c9rec hmem
  exact ⟨h1, h2.1, h2.2⟩

/-! ## Claim C10 -/

theorem tokensLoop_shape (l : List Char) (st : Option (List Char)) (cs : List Char)
    (hst : ∀ acc, st = some acc → acc.all (fun c => !(c = backtick)))
    (h : cs ∈ tokensLoop l st) :
    cs ≠ [] ∧ cs.all (fun c => !(c = backtick)) := by
  induction l generalizing st with
  | nil => simp [tokensLoop] at h
  | cons c rest ih =>
    cases st with
    | none =>
      rw [tokensLoop] at h
      by_cases hc : c = backtick
      · rw [if_pos hc] at h
        exact ih _ (by intro acc hacc; cases hacc; rfl) h
      · rw [if_neg hc] at h
        exact ih _ (by intro acc hacc; cases hacc) h
    | some acc =>
      rw [tokensLoop] at h
      by_cases hc : c = backtick
      · rw [if_pos hc] at h
        by_cases ha : acc = []
        · rw [if_pos ha] at h
          exact ih _ (by intro acc' hacc'; cases hacc'; rfl) h
        · rw [if_neg ha] at h
          rcases List.mem_cons.mp h with h | h
          · subst h
            have hall := hst acc rfl
            refine ⟨by simpa using ha, ?_⟩
            rw [List.all_eq_true] at hall ⊢
            intro x hx
            exact hall x (List.mem_reverse.mp hx)
          · exact ih _ (by intro acc' hacc'; cases hacc') h
      · rw [if_neg hc] at h
        refine ih _ ?_ h
        intro acc' hacc'
        cases hacc'
        have hall := hst acc rfl
        rw [List.all_eq_true] at hall ⊢
        intro x hx
        rcases List.mem_cons.mp hx with hx | hx
        · subst hx; simpa using hc
        · exact hall x hx

/-- C10: every token of the tokenizer is non-empty and contains no
backtick; in particular a pair of immediately adjacent backticks yields
no token. -/
theorem c10_tokens_nonempty_backtick_free (s t : String)
    (h : t ∈ extract_columns_from_expression s) :
    t ≠ "" ∧ t.toList.all (fun c => !(c = backtick)) := by
  unfold extract_columns_from_expression backtickTokens at h
  rw [List.mem_toFinset, List.mem_map] at h
  obtain ⟨cs, hcs, rfl⟩ := h
  obtain ⟨h1, h2⟩ := tokensLoop_shape _ none cs (by intro acc hacc; cases hacc) hcs
  constructor
  · intro he
    apply h1
    have : (String.mk cs).toList = ("" : String).toList := by rw [he]
    simpa using this
  · simpa using h2

theorem c10_witness :
    ("a" ∈ extract_columns_from_expression "`a` + ``")
    ∧ ("a" ≠ "" ∧ "a".toList.all (fun c => !(c = backtick))) := by
  have hmem : "a" ∈ extract_columns_from_expression "`a` + ``" := by decide
  exact ⟨hmem, c10_tokens_nonempty_backtick_free "`a` + ``" "a" hmem⟩

end AibiLens
namespace AibiLens

/-! ## Claim C5 -/

theorem tableUnion_eq (entries : List UsageRecord) :
    tableUnion entries = ((entries.map (fun e => e.columns_used)).flatten).toFinset := by
  unfold tableUnion
  suffices h : ∀ s : Finset String, entries.foldl (fun s e => s ∪ e.columns_used.toFinset) s
      = s ∪ ((entries.map (fun e => e.columns_used)).flatten).toFinset by
    simpa using h ∅
  induction entries with
  | nil => intro s; simp
  | cons e es ih =>
    intro s
    simp [List.foldl_cons, ih, Finset.union_assoc]

theorem lexLe_iff (as bs : List Char) : lexLe as bs = true ↔ ¬ bs < as := by
  induction as generalizing bs with
  | nil =>
    constructor
    · intro _ hlt
      cases hlt
    · intro _
      rfl
  | cons a as ih =>
    cases bs with
    | nil =>
      simp only [lexLe, Bool.false_eq_true, false_iff, not_not]
      exact List.Lex.nil
    | cons b bs =>
      rw [lexLe]
      by_cases h1 : a < b
      · simp only [if_pos h1, true_iff]
        intro hlt
        cases hlt with
        | cons _ => exact lt_irrefl a h1
        | rel hba => exact lt_asymm h1 hba
      · by_cases h2 : b < a
        · simp only [if_neg h1, if_pos h2, Bool.false_eq_true, false_iff, not_not]
          exact List.Lex.rel h2
        · have hab : a = b := le_antisymm (le_of_not_lt h2) (le_of_not_lt h1)
          subst hab
          simp only [if_neg h1, if_neg h2, ih]
          constructor
          · intro hn hlt
            cases hlt with
            | cons htl => exact hn htl
            | rel hba => exact h2 hba
          · intro hn htl
            exact hn (List.Lex.cons htl)

theorem strLe_iff (a b : String) : strLe a b = true ↔ a ≤ b := by
  rw [strLe, lexLe_iff, not_lt, String.le_iff_toList_le]

theorem perm_insertStr (a : String) (l : List String) :
    List.Perm (insertStr a l) (a :: l) := by
  induction l with
  | nil => exact List.Perm.refl _
  | cons b bs ih =>
    rw [insertStr]
    by_cases h : strLe a b = true
    · rw [if_pos h]
    · rw [if_neg h]
      exact List.Perm.trans (ih.cons b) (List.Perm.swap a b bs)

theorem perm_sortStrs (l : List String) : List.Perm (sortStrs l) l := by
  induction l with
  | nil => exact List.Perm.refl _
  | cons a as ih =>
    rw [sortStrs]
    exact List.Perm.trans (perm_insertStr a (sortStrs as)) (ih.cons a)

theorem sorted_insertStr (a : String) (l : List String)
    (h : l.Sorted (· ≤ ·)) : (insertStr a l).Sorted (· ≤ ·) := by
  induction l with
  | nil => simp [insertStr]
  | cons b bs ih =>
    rw [insertStr]
    rw [List.sorted_cons] at h
    by_cases hab : strLe a b = true
    · rw [if_pos hab]
      rw [List.sorted_cons]
      refine ⟨?_, List.sorted_cons.mpr h⟩
      intro c hc
      rcases List.mem_cons.mp hc with hc | hc
      · exact hc ▸ (strLe_iff a b).mp hab
      · exact le_trans ((strLe_iff a b).mp hab) (h.1 c hc)
    · rw [if_neg hab]
      rw [List.sorted_cons]
      have hba : b ≤ a := by
        rcases le_total a b with hab' | hba'
        · exact absurd ((strLe_iff a b).mpr hab') hab
        · exact hba'
      refine ⟨?_, ih h.2⟩
      intro c hc
      rcases List.mem_cons.mp ((perm_insertStr a bs).mem_iff.mp hc) with hc | hc
      · exact hc ▸ hba
      · exact h.1 c hc

theorem sorted_sortStrs (l : List String) : (sortStrs l).Sorted (· ≤ ·) := by
  induction l with
  | nil => simp [sortStrs]
  | cons a as ih =>
    rw [sortStrs]
    exact sorted_insertStr a (sortStrs as) ih

theorem tableColumnsSorted_eq_sort (entries : List UsageRecord) :
    tableColumnsSorted entries = (tableUnion entries).sort (· ≤ ·) := by
  unfold tableColumnsSorted
  refine List.eq_of_perm_of_sorted ?_ (sorted_sortStrs _) (Finset.sort_sorted _ _)
  have hnd : (sortStrs ((entries.map (fun e => e.columns_used)).flatten.dedup)).Nodup :=
    (perm_sortStrs _).nodup_iff.mpr (List.nodup_dedup _)
  rw [List.perm_ext_iff_of_nodup hnd (Finset.sort_nodup _ _)]
  intro a
  rw [Finset.mem_sort, tableUnion_eq, List.mem_toFinset]
  constructor
  · intro ha
    exact List.mem_dedup.mp ((perm_sortStrs _).mem_iff.mp ha)
  · intro ha
    exact (perm_sortStrs _).mem_iff.mpr (List.mem_dedup.mpr ha)

/-- C5: for every table present in `by_table`, the generated column list
is exactly the sorted, deduplicated set union of `columns_used` over the
records grouped under that table. -/
theorem c5_used_columns (R : Results) (t : String) (entries : List UsageRecord)
    (h : dictGet R.by_table t = some entries) :
    dictGet (generate_column_lists_for_sql R) t = some ((tableUnion entries).sort (· ≤ ·))
    ∧ ∀ c : String, c ∈ (tableUnion entries).sort (· ≤ ·)
        ↔ ∃ e ∈ entries, c ∈ e.columns_used := by
  constructor
  · unfold generate_column_lists_for_sql
    rw [dictGet_map_snd R.by_table tableColumnsSorted t, h]
    simp [tableColumnsSorted_eq_sort]
  · intro c
    rw [Finset.mem_sort, tableUnion_eq, List.mem_toFinset, List.mem_flatten]
    constructor
    · intro hc
      obtain ⟨l, hl, hcl⟩ := hc
      rw [List.mem_map] at hl
      obtain ⟨e, he, rfl⟩ := hl
      exact ⟨e, he, hcl⟩
    · intro hc
      obtain ⟨e, he, hce⟩ := hc
      exact ⟨e.columns_used, List.mem_map.mpr ⟨e, he, rfl⟩, hce⟩

def c5r1 : UsageRecord :=
  { page := "P", widget := "W", dataset_id := "d", table_name := "t",
    field_name := some "f", expression := some "x", filter_expression := none,
    columns_used := ["b", "a"], type := "field" }

def c5r2 : UsageRecord :=
  { page := "P", widget := "W", dataset_id := "d", table_name := "t",
    field_name := none, expression := none, filter_expression := some "y",
    columns_used := ["a", "c"], type := "filter" }

def c5res : Results :=
  { by_widget := [c5r1, c5r2], by_table := [("t", [c5r1, c5r2])],
    all_columns := ∅, all_expressions := ["x"], all_filters := ["y"],
    dataset_mapping := [] }

theorem c5_witness :
    dictGet (generate_column_lists_for_sql c5res) "t" = some ["a", "b", "c"]
    ∧ ("b" ∈ ["a", "b", "c"] ↔ ∃ e ∈ [c5r1, c5r2], "b" ∈ e.columns_used) := by
  have h := c5_used_columns c5res "t" [c5r1, c5r2] rfl
  have e1 : dictGet (generate_column_lists_for_sql c5res) "t" = some ["a", "b", "c"] := by
    decide
  have hs : (tableUnion [c5r1, c5r2]).sort (· ≤ ·) = ["a", "b", "c"] :=
    Option.some.inj (h.1.symm.trans e1)
  exact ⟨e1, hs ▸ h.2 "b"⟩

end AibiLens
namespace AibiLens

/-! ## Claim C4

The claim-side view of the tokenizer: split the expression at every
backtick; the chunks after the first are alternately candidate contents
and gaps.  `pickAllTokens` is the claim's literal pairing (every two
backticks delimit one token, empty content included); `pickTokens` is the
pairing with the empty-content pair skipped, which the code implements. -/

def splitBTAux : List Char → List Char → List (List Char)
  | [], acc => [acc.reverse]
  | c :: rest, acc =>
    if c = backtick then acc.reverse :: splitBTAux rest []
    else splitBTAux rest (c :: acc)

def splitBT (l : List Char) : List (List Char) := splitBTAux l []

def pickTokens : List (List Char) → List (List Char)
  | [] => []
  | [_] => []
  | x :: y :: rest => if x = [] then pickTokens (y :: rest) else x :: pickTokens rest

def pickAllTokens : List (List Char) → List (List Char)
  | [] => []
  | [_] => []
  | x :: _ :: rest => x :: pickAllTokens rest

/-- The tokens of the amended pairing reading, at the string level. -/
def pairedTokens (s : String) : List String :=
  (pickTokens ((splitBT s.toList).drop 1)).map fun cs => String.mk cs

/-- The tokens of the claim's literal pairing reading (every two
backticks delimit one token, even over empty content). -/
def claimPairedTokens (s : String) : List String :=
  (pickAllTokens ((splitBT s.toList).drop 1)).map fun cs => String.mk cs

theorem splitBTAux_ne_nil (l : List Char) (acc : List Char) : splitBTAux l acc ≠ [] := by
  induction l generalizing acc with
  | nil => simp [splitBTAux]
  | cons c rest ih =>
    rw [splitBTAux]
    by_cases h : c = backtick
    · simp [h]
    · simpa [h] using ih (c :: acc)

theorem splitBTAux_acc (l : List Char) (acc h : List Char) (t : List (List Char))
    (he : splitBTAux l [] = h :: t) : splitBTAux l acc = (acc.reverse ++ h) :: t := by
  induction l generalizing acc h t with
  | nil =>
    rw [splitBTAux] at he ⊢
    obtain ⟨rfl, rfl⟩ := by simpa using he
    simp
  | cons c rest ih =>
    rw [splitBTAux] at he ⊢
    by_cases hc : c = backtick
    · rw [if_pos hc] at he ⊢
      rw [List.cons.injEq] at he
      obtain ⟨he1, he2⟩ := he
      rw [← he1, ← he2]
      simp
    · rw [if_neg hc] at he ⊢
      obtain ⟨h', t', he'⟩ : ∃ h' t', splitBTAux rest [] = h' :: t' := by
        cases hre : splitBTAux rest [] with
        | nil => exact absurd hre (splitBTAux_ne_nil rest [])
        | cons a b => exact ⟨a, b, rfl⟩
      have hc1 := ih [c] h' t' he'
      rw [hc1, List.cons.injEq] at he
      have hc2 := ih (c :: acc) h' t' he'
      rw [hc2, ← he.1, ← he.2]
      simp
theorem tokensLoop_eq_pick (l : List Char) :
    tokensLoop l none = pickTokens ((splitBT l).drop 1)
    ∧ ∀ (acc h : List Char) (t : List (List Char)), splitBT l = h :: t →
        tokensLoop l (some acc) = pickTokens ((acc.reverse ++ h) :: t) := by
  induction l with
  | nil =>
    constructor
    · rfl
    · intro acc h t he
      rw [splitBT, splitBTAux, List.cons.injEq] at he
      rw [tokensLoop, ← he.1, ← he.2]
      rfl
  | cons c rest ih =>
    obtain ⟨ihA, ihB⟩ := ih
    obtain ⟨h', t', he'⟩ : ∃ h' t', splitBT rest = h' :: t' := by
      cases hre : splitBT rest with
      | nil => exact absurd hre (splitBTAux_ne_nil rest [])
      | cons a b => exact ⟨a, b, rfl⟩
    have he2 : splitBTAux rest [] = h' :: t' := he'
    constructor
    · rw [tokensLoop, splitBT, splitBTAux]
      by_cases hc : c = backtick
      · rw [if_pos hc, if_pos hc, ihB [] h' t' he', he2]
        simp
      · rw [if_neg hc, if_neg hc, ihA,
          splitBTAux_acc rest [c] h' t' he2, he']
        simp
    · intro acc h t he
      rw [splitBT, splitBTAux] at he
      rw [tokensLoop]
      by_cases hc : c = backtick
      · rw [if_pos hc] at he ⊢
        rw [he2, List.cons.injEq] at he
        by_cases ha : acc = []
        · rw [if_pos ha, ihB [] h' t' he', ha, ← he.1, ← he.2]
          simp [pickTokens]
        · rw [if_neg ha, ihA, he', ← he.1, ← he.2]
          have hne : acc.reverse ++ [].reverse ≠ [] := by simpa using ha
          simp only [List.drop_succ_cons, List.drop_zero, pickTokens, if_neg hne]
          simp
      · rw [if_neg hc] at he ⊢
        rw [splitBTAux_acc rest [c] h' t' he2, List.cons.injEq] at he
        rw [ihB (c :: acc) h' t' he', ← he.1, ← he.2]
        simp

end AibiLens
namespace AibiLens

theorem tokensLoop_no_backtick (l : List Char)
    (h : l.all (fun c => !(c = backtick))) : tokensLoop l none = [] := by
  induction l with
  | nil => rfl
  | cons c rest ih =>
    rw [List.all_cons, Bool.and_eq_true] at h
    have hc : ¬ c = backtick := by simpa using h.1
    rw [tokensLoop, if_neg hc]
    exact ih h.2

/-- C4 (counterexample): under the claim's literal pairing every two
backticks delimit one token, so the expression of two adjacent backticks
would tokenize to the singleton set of the empty string; the code's
tokenizer returns the empty set on it instead, because its content class
requires at least one character between the backticks. -/
theorem c4_counterexample :
    claimPairedTokens "``" = [""] ∧ extract_columns_from_expression "``" = ∅ := by
  constructor
  · decide
  · decide

/-- C4 (amended): the tokenizer returns exactly the set of substrings
delimited by backtick pairs under leftmost-greedy non-nested pairing in
which a pair must enclose at least one character: a backtick immediately
followed by another backtick forms no pair and the second backtick starts
the next pairing attempt; contents are verbatim, an expression with no
backtick at all yields the empty set, and the claim's concrete examples
hold. -/
theorem c4_tokenizer_pairing :
    (∀ s : String, extract_columns_from_expression s = (pairedTokens s).toFinset)
    ∧ extract_columns_from_expression "`customer_id` = 5" = {"customer_id"}
    ∧ extract_columns_from_expression "1 = 1" = ∅
    ∧ extract_columns_from_expression "`a`.`b`" = {"a", "b"}
    ∧ (∀ s : String, s.toList.all (fun c => !(c = backtick)) →
        extract_columns_from_expression s = ∅) := by
  refine ⟨?_, by decide, by decide, by decide, ?_⟩
  · intro s
    unfold extract_columns_from_expression backtickTokens pairedTokens
    rw [(tokensLoop_eq_pick s.toList).1]
  · intro s hs
    unfold extract_columns_from_expression backtickTokens
    rw [tokensLoop_no_backtick s.toList hs]
    rfl

theorem c4_witness : extract_columns_from_expression "col1 + col2" = ∅ :=
  c4_tokenizer_pairing.2.2.2.2 "col1 + col2" (by decide)

end AibiLens
namespace AibiLens

/-! ## Claim C2 -/

theorem findFrom_first (l t : List Char) (h : findFrom l = some t) :
    ∃ i, parseFromAt (l.drop i) = some t ∧ ∀ j < i, parseFromAt (l.drop j) = none := by
  induction l with
  | nil => simp [findFrom] at h
  | cons c rest ih =>
    rw [findFrom] at h
    cases hp : parseFromAt (c :: rest) with
    | some t' =>
      rw [hp] at h
      refine ⟨0, ?_, ?_⟩
      · simpa [hp] using h
      · intro j hj
        omega
    | none =>
      rw [hp] at h
      obtain ⟨i, h1, h2⟩ := ih h
      refine ⟨i + 1, by simpa using h1, ?_⟩
      intro j hj
      cases j with
      | zero => simpa using hp
      | succ j' => simpa using h2 j' (by omega)

theorem findFrom_none (l : List Char) (h : findFrom l = none) :
    ∀ i, parseFromAt (l.drop i) = none := by
  induction l with
  | nil =>
    intro i
    simp [parseFromAt]
  | cons c rest ih =>
    rw [findFrom] at h
    cases hp : parseFromAt (c :: rest) with
    | some t' => rw [hp] at h; cases h
    | none =>
      rw [hp] at h
      intro i
      cases i with
      | zero => simpa using hp
      | succ i' => simpa using ih h i'

theorem dotTail_append (l : List Char) :
    (∃ post, l = dotTail l false ++ post)
    ∧ (∃ post, '.' :: l = dotTail l true ++ post) := by
  induction l with
  | nil => exact ⟨⟨[], rfl⟩, ⟨['.'], rfl⟩⟩
  | cons c rest ih =>
    constructor
    · by_cases hid : isIdentChar c
      · obtain ⟨post, hpost⟩ := ih.1
        refine ⟨post, ?_⟩
        rw [dotTail, if_pos hid, List.cons_append, ← hpost]
      · by_cases hdot : c = '.'
        · obtain ⟨post, hpost⟩ := ih.2
          subst hdot
          refine ⟨post, ?_⟩
          rw [dotTail, if_neg hid, if_pos rfl, ← hpost]
        · exact ⟨c :: rest, by rw [dotTail, if_neg hid, if_neg hdot]; rfl⟩
    · by_cases hid : isIdentChar c
      · obtain ⟨post, hpost⟩ := ih.1
        refine ⟨post, ?_⟩
        rw [dotTail, if_pos hid]
        simp only [List.cons_append]
        rw [← hpost]
      · exact ⟨'.' :: c :: rest, by rw [dotTail, if_neg hid]; rfl⟩

theorem dotTail_segments (l : List Char) :
    (∃ seg0 segs, dotTail l false = seg0 ++ (List.map (fun seg => '.' :: seg) segs).flatten
      ∧ (∀ c ∈ seg0, isIdentChar c = true)
      ∧ ∀ seg ∈ segs, seg ≠ [] ∧ ∀ c ∈ seg, isIdentChar c = true)
    ∧ (∃ segs, dotTail l true = (List.map (fun seg => '.' :: seg) segs).flatten
      ∧ ∀ seg ∈ segs, seg ≠ [] ∧ ∀ c ∈ seg, isIdentChar c = true) := by
  induction l with
  | nil =>
    refine ⟨⟨[], [], rfl, ?_, ?_⟩, ⟨[], rfl, ?_⟩⟩ <;> simp
  | cons c rest ih =>
    constructor
    · by_cases hid : isIdentChar c
      · obtain ⟨seg0, segs, heq, hseg0, hsegs⟩ := ih.1
        refine ⟨c :: seg0, segs, ?_, ?_, hsegs⟩
        · rw [dotTail, if_pos hid, heq]
          rfl
        · intro x hx
          rcases List.mem_cons.mp hx with hx | hx
          · exact hx ▸ hid
          · exact hseg0 x hx
      · by_cases hdot : c = '.'
        · obtain ⟨segs, heq, hsegs⟩ := ih.2
          subst hdot
          exact ⟨[], segs, by rw [dotTail, if_neg hid, if_pos rfl, heq]; rfl, by simp, hsegs⟩
        · exact ⟨[], [], by rw [dotTail, if_neg hid, if_neg hdot]; rfl, by simp, by simp⟩
    · by_cases hid : isIdentChar c
      · obtain ⟨seg0, segs, heq, hseg0, hsegs⟩ := ih.1
        refine ⟨(c :: seg0) :: segs, ?_, ?_⟩
        · rw [dotTail, if_pos hid, heq]
          simp
        · intro seg hseg
          rcases List.mem_cons.mp hseg with hseg | hseg
          · subst hseg
            refine ⟨by simp, ?_⟩
            intro x hx
            rcases List.mem_cons.mp hx with hx | hx
            · exact hx ▸ hid
            · exact hseg0 x hx
          · exact hsegs seg hseg
      · exact ⟨[], by rw [dotTail, if_neg hid]; rfl, by simp⟩

end AibiLens
namespace AibiLens

theorem parseFromAt_some {l t : List Char} (h : parseFromAt l = some t) :
    (∃ pre post, l = pre ++ t ++ post)
    ∧ (∃ seg0 segs, t = seg0 ++ (List.map (fun seg => '.' :: seg) segs).flatten
        ∧ seg0 ≠ [] ∧ (∀ c ∈ seg0, isIdentChar c = true)
        ∧ ∀ seg ∈ segs, seg ≠ [] ∧ ∀ c ∈ seg, isIdentChar c = true) := by
  rcases l with _ | ⟨c1, _ | ⟨c2, _ | ⟨c3, _ | ⟨c4, rest⟩⟩⟩⟩
  · simp [parseFromAt] at h
  · simp [parseFromAt] at h
  · simp [parseFromAt] at h
  · simp [parseFromAt] at h
  rw [parseFromAt] at h
  by_cases hfrom : c1.toLower = 'f' ∧ c2.toLower = 'r' ∧ c3.toLower = 'o' ∧ c4.toLower = 'm'
  case neg => rw [if_neg hfrom] at h; cases h
  rw [if_pos hfrom] at h
  by_cases hws : rest.takeWhile isSpaceChar = []
  case pos => rw [if_pos hws] at h; cases h
  rw [if_neg hws] at h
  rcases hl' : rest.dropWhile isSpaceChar with _ | ⟨d, rest2⟩
  · rw [hl'] at h; simp [parseDottedIdent] at h
  rw [hl'] at h
  simp only [parseDottedIdent] at h
  by_cases hid : isIdentChar d
  case neg => rw [if_neg hid] at h; cases h
  rw [if_pos hid] at h
  injection h with ht
  constructor
  · obtain ⟨post, hpost⟩ := (dotTail_append (d :: rest2)).1
    have hrest : rest = rest.takeWhile isSpaceChar ++ (d :: rest2) := by
      rw [← hl']
      exact (List.takeWhile_append_dropWhile _ _).symm
    refine ⟨c1 :: c2 :: c3 :: c4 :: rest.takeWhile isSpaceChar, post, ?_⟩
    rw [← ht]
    simp only [List.cons_append, List.append_assoc]
    rw [← hpost, ← hrest]
  · obtain ⟨seg0, segs, heq, hseg0, hsegs⟩ := (dotTail_segments rest2).1
    refine ⟨d :: seg0, segs, ?_, by simp, ?_, hsegs⟩
    · rw [← ht, dotTail, if_pos hid, heq]
      rfl
    · intro x hx
      rcases List.mem_cons.mp hx with hx | hx
      · exact hx ▸ hid
      · exact hseg0 x hx

/-- C2 (amended): whenever the concatenated query string contains the
pattern — "FROM", case-insensitively, then whitespace, then a dotted
identifier of segments of `[A-Za-z0-9_]+` joined by literal dots — the
extractor returns exactly the greedy match at the first matching
position, verbatim as a substring of the query, and the matched
identifier has one or more segments, each non-empty and made of
identifier characters; the original 1–3 segment bound does not hold, the
segment count is unbounded.  When no position matches, the extractor
returns nothing. -/
theorem c2_first_from_match (q s : String) :
    (extract_table_name q = some s →
      (∃ i, parseFromAt (q.toList.drop i) = some s.toList
          ∧ ∀ j < i, parseFromAt (q.toList.drop j) = none)
      ∧ (∃ pre post, q.toList = pre ++ s.toList ++ post)
      ∧ (∃ seg0 segs, s.toList = seg0 ++ (List.map (fun seg => '.' :: seg) segs).flatten
          ∧ seg0 ≠ [] ∧ (∀ c ∈ seg0, isIdentChar c = true)
          ∧ ∀ seg ∈ segs, seg ≠ [] ∧ ∀ c ∈ seg, isIdentChar c = true))
    ∧ (extract_table_name q = none → ∀ i, parseFromAt (q.toList.drop i) = none) := by
  constructor
  · intro h
    unfold extract_table_name at h
    cases hf : findFrom q.toList with
    | none => rw [hf] at h; cases h
    | some cs =>
      rw [hf] at h
      injection h with h'
      have hs : s.toList = cs := by rw [← h']; rfl
      obtain ⟨i, h1, h2⟩ := findFrom_first _ _ hf
      rw [← hs] at h1
      refine ⟨⟨i, h1, h2⟩, ?_, ?_⟩
      · obtain ⟨pre1, post, hppp⟩ := (parseFromAt_some h1).1
        refine ⟨q.toList.take i ++ pre1, post, ?_⟩
        conv_lhs => rw [← List.take_append_drop i q.toList]
        rw [hppp]
        simp [List.append_assoc]
      · exact (parseFromAt_some h1).2
  · intro h
    unfold extract_table_name at h
    cases hf : findFrom q.toList with
    | some cs => rw [hf] at h; cases h
    | none => exact findFrom_none _ hf

/-- C2 (counterexample): the FROM pattern accepts dotted identifiers of
any segment count; on this query the extractor returns a four-segment
identifier verbatim, refuting the claimed 1–3 segment bound. -/
theorem c2_counterexample :
    extract_table_name "SELECT * FROM a.b.c.d" = some "a.b.c.d"
    ∧ ("a.b.c.d".toList.splitOn '.').length = 4 :=
  ⟨by decide, by decide⟩

theorem c2_witness :
    extract_table_name "SELECT a FROM sales.orders" = some "sales.orders"
    ∧ ∃ i, parseFromAt (("SELECT a FROM sales.orders" : String).toList.drop i)
        = some ("sales.orders" : String).toList
      ∧ ∀ j < i, parseFromAt (("SELECT a FROM sales.orders" : String).toList.drop j) = none := by
  have he : extract_table_name "SELECT a FROM sales.orders" = some "sales.orders" := by
    decide
  exact ⟨he, ((c2_first_from_match "SELECT a FROM sales.orders" "sales.orders").1 he).1⟩

end AibiLens
namespace AibiLens

/-! ## Claim C1 -/

theorem extract_table_name_ne_empty (q s : String)
    (h : extract_table_name q = some s) : s ≠ "" := by
  unfold extract_table_name at h
  cases hf : findFrom q.toList with
  | none => rw [hf] at h; cases h
  | some cs =>
    rw [hf] at h
    injection h with h'
    obtain ⟨i, h1, _⟩ := findFrom_first _ _ hf
    obtain ⟨seg0, segs, heq, hne, _, _⟩ := (parseFromAt_some h1).2
    intro he
    have : cs = [] := by
      have h2 : s.toList = cs := by rw [← h']; rfl
      rw [he] at h2
      simpa using h2.symm
    rw [this] at heq
    rcases seg0 with _ | ⟨a, b⟩
    · exact hne rfl
    · cases heq

theorem buildStep_get_other (m : List (String × String)) (ds : Dataset) (k : String)
    (hk : ∀ id, truthy ds.name = some id → id ≠ k) :
    dictGet (buildStep m ds) k = dictGet m k := by
  unfold buildStep
  cases htr : truthy ds.name with
  | none => cases ds.queryLines.getD [] <;> rfl
  | some id =>
    cases hql : ds.queryLines.getD [] with
    | nil => rfl
    | cons a b =>
      rw [dictGet_dictInsert]
      rw [if_neg (hk id htr)]

theorem foldl_build_get_none (l : List Dataset) (m : List (String × String)) (k : String)
    (h : ∀ ds ∈ l, ∀ id, truthy ds.name = some id → id ≠ k) :
    dictGet (l.foldl buildStep m) k = dictGet m k := by
  induction l generalizing m with
  | nil => rfl
  | cons ds0 rest ih =>
    rw [List.foldl_cons, ih _ (fun ds hds => h ds (List.mem_cons_of_mem _ hds)),
      buildStep_get_other _ _ _ (h ds0 (List.mem_cons_self _ _))]

theorem foldl_build_get_mem (l : List Dataset) (m : List (String × String)) (ds : Dataset)
    (hmem : ds ∈ l) (id : String) (hid : truthy ds.name = some id)
    (hnd : (l.filterMap (fun x => truthy x.name)).Nodup)
    (hm : dictGet m id = none) :
    dictGet (l.foldl buildStep m) id =
      match ds.queryLines.getD [] with
      | [] => none
      | _ :: _ => some (datasetValue ds id) := by
  induction l generalizing m with
  | nil => cases hmem
  | cons ds0 rest ih =>
    rw [List.foldl_cons]
    rcases List.mem_cons.mp hmem with heq | hmem'
    · subst heq
      have hothers : ∀ ds' ∈ rest, ∀ id', truthy ds'.name = some id' → id' ≠ id := by
        intro ds' hds' id' hid' he
        subst he
        rw [List.filterMap_cons, hid, List.nodup_cons] at hnd
        exact hnd.1 (List.mem_filterMap.mpr ⟨ds', hds', hid'⟩)
      rw [foldl_build_get_none rest _ id hothers]
      unfold buildStep
      rw [hid]
      cases hql : ds.queryLines.getD [] with
      | nil => simpa [hql] using hm
      | cons a b =>
        simp only [hql]
        rw [dictGet_dictInsert, if_pos rfl]
    · have hnd' : (rest.filterMap (fun x => truthy x.name)).Nodup := by
        rw [List.filterMap_cons] at hnd
        cases htr : truthy ds0.name with
        | none => rw [htr] at hnd; exact hnd
        | some id0 => rw [htr, List.nodup_cons] at hnd; exact hnd.2
      have hm' : dictGet (buildStep m ds0) id = none := by
        cases htr : truthy ds0.name with
        | none =>
          rw [buildStep_get_other _ _ _ (fun id' hid' => by rw [htr] at hid'; cases hid')]
          exact hm
        | some id0 =>
          have hne : id0 ≠ id := by
            rw [List.filterMap_cons, htr, List.nodup_cons] at hnd
            intro he
            subst he
            exact hnd.1 (List.mem_filterMap.mpr ⟨ds, hmem', hid⟩)
          unfold buildStep
          rw [htr]
          cases hql0 : ds0.queryLines.getD [] with
          | nil => exact hm
          | cons a b =>
            rw [dictGet_dictInsert, if_neg hne]
            exact hm
      exact ih _ hmem' hnd' hm'

theorem foldl_build_get_src (l : List Dataset) (m : List (String × String)) (k v : String)
    (h : dictGet (l.foldl buildStep m) k = some v) :
    dictGet m k = some v
    ∨ ∃ ds ∈ l, truthy ds.name = some k ∧ ds.queryLines.getD [] ≠ [] := by
  induction l generalizing m with
  | nil => exact Or.inl h
  | cons ds0 rest ih =>
    rw [List.foldl_cons] at h
    rcases ih _ h with h0 | ⟨ds, hds, hds2⟩
    · unfold buildStep at h0
      cases htr : truthy ds0.name with
      | none =>
        rw [htr] at h0
        cases ds0.queryLines.getD [] <;> exact Or.inl h0
      | some id0 =>
        rw [htr] at h0
        cases hql : ds0.queryLines.getD [] with
        | nil => rw [hql] at h0; exact Or.inl h0
        | cons a b =>
          rw [hql, dictGet_dictInsert] at h0
          by_cases hk : id0 = k
          · exact Or.inr ⟨ds0, List.mem_cons_self _ _, hk ▸ htr, by simp [hql]⟩
          · rw [if_neg hk] at h0
            exact Or.inl h0
    · exact Or.inr ⟨ds, List.mem_cons_of_mem _ hds, hds2⟩

end AibiLens
namespace AibiLens

def c1ds : Dataset := ⟨some "ds1", some "Orders View", some []⟩

def c1query : DashQuery :=
  { datasetName := some "ds1",
    fields := some [⟨some "f", some "`x`"⟩],
    filters := none }

def c1widget : Widget :=
  { name := some "w", spec := none, queries := some [⟨some c1query⟩] }

def c1doc : Document :=
  { datasets := some [c1ds],
    pages := some [⟨some "P", some [⟨some c1widget⟩]⟩] }

/-- C1 (counterexample): a dataset with empty `query_lines` gets no entry
at all in the Dataset Resolver's mapping — the claimed fallback to
`display_name` does not happen — and the pipeline resolves that dataset's
records to the raw dataset id, not to "Orders View". -/
theorem c1_counterexample :
    build_dataset_mapping c1doc = []
    ∧ dictGet (build_dataset_mapping c1doc) "ds1" = none
    ∧ (extract_expressions c1doc).by_widget.map (fun r => r.table_name) = ["ds1"] :=
  ⟨by decide, by decide, by decide⟩

/-- C1 (amended): the mapping has an entry exactly for each dataset with
a present, non-empty id and non-empty `query_lines` — the entry being the
recovered table name when a truthy one is found, else `display_name`,
else the raw id — while a dataset with empty `query_lines` (or an absent
or empty id) gets no entry, and the harvester later falls back to the raw
dataset id for it.  Stated for documents whose truthy dataset ids are
pairwise distinct. -/
theorem c1_dataset_mapping (d : Document)
    (hnd : ((d.datasets.getD []).filterMap (fun ds => truthy ds.name)).Nodup) :
    (∀ ds ∈ d.datasets.getD [], ∀ id, truthy ds.name = some id →
      dictGet (build_dataset_mapping d) id =
        match ds.queryLines.getD [] with
        | [] => none
        | _ :: _ => some (datasetValue ds id))
    ∧ (∀ ds id, datasetValue ds id =
        match extract_table_name (String.intercalate " " (ds.queryLines.getD [])) with
        | some t => t
        | none => ds.displayName.getD id)
    ∧ (∀ k v, dictGet (build_dataset_mapping d) k = some v →
        ∃ ds ∈ d.datasets.getD [], truthy ds.name = some k
          ∧ ds.queryLines.getD [] ≠ []) := by
  refine ⟨?_, ?_, ?_⟩
  · intro ds hmem id hid
    unfold build_dataset_mapping
    exact foldl_build_get_mem _ [] ds hmem id hid hnd rfl
  · intro ds id
    simp only [datasetValue]
    cases he : extract_table_name (String.intercalate " " (ds.queryLines.getD [])) with
    | none => rfl
    | some t =>
      have hne : t ≠ "" := extract_table_name_ne_empty _ _ he
      simp [truthy, hne]
  · intro k v h
    unfold build_dataset_mapping at h
    rcases foldl_build_get_src _ _ _ _ h with h0 | h0
    · cases h0
    · exact h0

def c1dsA : Dataset := ⟨some "d1", some "DN", some ["SELECT 1 FROM t1"]⟩

def c1dsB : Dataset := ⟨some "d2", some "View B", some []⟩

def c1docW : Document := { datasets := some [c1dsA, c1dsB], pages := none }

theorem c1_witness :
    dictGet (build_dataset_mapping c1docW) "d1" = some "t1"
    ∧ dictGet (build_dataset_mapping c1docW) "d2" = none := by
  have h := c1_dataset_mapping c1docW (by decide)
  have h1 := h.1 c1dsA (by decide) "d1" (by decide)
  have h2 := h.1 c1dsB (by decide) "d2" (by decide)
  constructor
  · rw [h1]
    decide
  · rw [h2]
    rfl

end AibiLens
